import Mathlib

/-!
Verification of the snippet-location parser and aggregation pipeline of
`gen-katla.py`.  Source lines are modelled as `List Char` (one list per file
line, line terminators already stripped, mirroring
`[line.rstrip("\n\r") for line in f.readlines()]`).  Python integers are
modelled as `Int` where the code can go negative (offset arithmetic), and the
regular expressions of the source are unfolded into the deterministic
character-level matchers they denote (each regex in the source is
backtracking-free: every `\s*` / `\w+` is followed by a character outside the
repeated class, and the lazy `(.*?)` group is resolved by taking the earliest
position at which the closing-marker pattern matches).
-/

namespace GenKatla

/-- Python `\s` (ASCII range, as used by the annotations). -/
def isWs (c : Char) : Bool := c.isWhitespace

/-- Python `\w` (ASCII range, as used by the annotations). -/
def isWordChar (c : Char) : Bool := c.isAlphanum || c == '_'

/-- Python `str.strip()` on a line. -/
def stripLine (l : List Char) : List Char :=
  ((l.dropWhile isWs).reverse.dropWhile isWs).reverse

/-- `DisplaySnippet` dataclass (the `kind` literal is carried by the
`Snippet` union below). -/
structure DisplaySnippet where
  name : List Char
  line_offset : Int
  line_count : Int
  deriving DecidableEq, Repr

/-- `InlineSnippet` dataclass. -/
structure InlineSnippet where
  name : List Char
  line_offset : Int
  column_start_offset : Int
  column_end_offset : Int
  deriving DecidableEq, Repr

/-- `Snippet = Union[DisplaySnippet, InlineSnippet]`, discriminated by `kind`. -/
inductive Snippet where
  | display : DisplaySnippet → Snippet
  | inline : InlineSnippet → Snippet
  deriving DecidableEq, Repr

/-- `snippet.name` across the union. -/
def Snippet.sname : Snippet → List Char
  | .display d => d.name
  | .inline s => s.name

/-- `re.match(r"^--\s*<(\w+)>\s*$", line)` on an already stripped line,
returning the captured name. -/
def matchDisplayStart (l : List Char) : Option (List Char) :=
  match l with
  | '-' :: '-' :: r0 =>
    match r0.dropWhile isWs with
    | '<' :: r1 =>
      match r1.takeWhile isWordChar, r1.dropWhile isWordChar with
      | [], _ => none
      | nm, '>' :: r2 => if r2.all isWs then some nm else none
      | _, _ => none
    | _ => none
  | _ => none

/-- `re.match(rf"^--\s*</{re.escape(name)}>\s*$", end_line)` on an already
stripped line. -/
def matchDisplayEnd (nm : List Char) (l : List Char) : Bool :=
  match l with
  | '-' :: '-' :: r0 =>
    match r0.dropWhile isWs with
    | '<' :: '/' :: r1 =>
      if r1.take nm.length = nm then
        match r1.drop nm.length with
        | '>' :: r2 => r2.all isWs
        | _ => false
      else false
    | _ => false
  | _ => false

/-- The inner `while j < len(lines)` search of `parse_display_snippets`:
index (relative to the lines after the opening marker) of the first line
whose stripped content matches the closing marker. -/
def findCloseIdx (nm : List Char) : List (List Char) → Option Nat
  | [] => none
  | l :: rest =>
    if matchDisplayEnd nm (stripLine l) then some 0
    else (findCloseIdx nm rest).map (· + 1)

/-- The outer `while i < len(lines)` loop of `parse_display_snippets`,
carrying the current 0-indexed line number `i`.  Returns the snippets and the
"unclosed display tag" diagnostics (as `(name, start_line + 1)` pairs, the
data interpolated into the warning message). -/
def parseDisplayAux : Nat → List (List Char) → List DisplaySnippet × List (List Char × Int)
  | _, [] => ([], [])
  | i, l :: rest =>
    let res := parseDisplayAux (i + 1) rest
    match matchDisplayStart (stripLine l) with
    | some nm =>
      match findCloseIdx nm rest with
      | some k =>
        let j := i + 1 + k
        (⟨nm, (i : Int) + 1, (j : Int) - i - 1⟩ :: res.1, res.2)
      | none => (res.1, (nm, (i : Int) + 1) :: res.2)
    | none => res

/-- `parse_display_snippets(lines)` together with its warning side channel. -/
def parse_display_snippets (lines : List (List Char)) :
    List DisplaySnippet × List (List Char × Int) :=
  parseDisplayAux 0 lines

/-- The opening-marker part `\{-\s*<(\w+)>\s*-\}` of the inline pattern,
matched at the head of `cs`: returns the captured name and the number of
characters consumed. -/
def parseOpener (cs : List Char) : Option (List Char × Nat) :=
  match cs with
  | '{' :: '-' :: r0 =>
    let w1 := r0.takeWhile isWs
    match r0.dropWhile isWs with
    | '<' :: r1 =>
      match r1.takeWhile isWordChar, r1.dropWhile isWordChar with
      | [], _ => none
      | nm, '>' :: r2 =>
        let w2 := r2.takeWhile isWs
        match r2.dropWhile isWs with
        | '-' :: '}' :: _ => some (nm, 2 + w1.length + 1 + nm.length + 1 + w2.length + 2)
        | _ => none
      | _, _ => none
    | _ => none
  | _ => none

/-- The closing-marker part `\{-\s*</\1>\s*-\}` of the inline pattern for a
given captured name, matched at the head of `cs`: returns the number of
characters consumed. -/
def parseCloser (nm : List Char) (cs : List Char) : Option Nat :=
  match cs with
  | '{' :: '-' :: r0 =>
    let w1 := r0.takeWhile isWs
    match r0.dropWhile isWs with
    | '<' :: '/' :: r1 =>
      if r1.take nm.length = nm then
        match r1.drop nm.length with
        | '>' :: r2 =>
          let w2 := r2.takeWhile isWs
          match r2.dropWhile isWs with
          | '-' :: '}' :: _ => some (2 + w1.length + 2 + nm.length + 1 + w2.length + 2)
          | _ => none
        | _ => none
      else none
    | _ => none
  | _ => none

/-- Resolution of the lazy `(.*?)` group: offset of the earliest position at
which the closing marker matches, together with the closer's length. -/
def findCloserFrom (nm : List Char) : List Char → Option (Nat × Nat)
  | [] => none
  | c :: rest =>
    match parseCloser nm (c :: rest) with
    | some len => some (0, len)
    | none => (findCloserFrom nm rest).map (fun p => (p.1 + 1, p.2))

/-- One attempt of the full inline pattern
`\{-\s*<(\w+)>\s*-\}(.*?)\{-\s*</\1>\s*-\}` at the head of `cs`: returns the
name, opener length, lazy-group length and closer length.  The guard mirrors
`.` not matching a newline. -/
def matchInlineAt (cs : List Char) : Option (List Char × Nat × Nat × Nat) :=
  match parseOpener cs with
  | none => none
  | some (nm, oLen) =>
    match findCloserFrom nm (cs.drop oLen) with
    | none => none
    | some (q, cLen) =>
      if ((cs.drop oLen).take q).all (fun c => c != '\n') then some (nm, oLen, q, cLen)
      else none

/-- `re.finditer` scan: left-to-right, non-overlapping, resuming after each
match.  Emits `(name, match.start(), match.end())` triples.  The fuel is an
upper bound on the number of scan steps (each step advances the position by
at least one). -/
def scanInlineAux (line : List Char) : Nat → Nat → List (List Char × Nat × Nat)
  | 0, _ => []
  | fuel + 1, pos =>
    if line.length ≤ pos then []
    else
      match matchInlineAt (line.drop pos) with
      | some (nm, oLen, q, cLen) =>
        (nm, pos, pos + (oLen + q + cLen)) :: scanInlineAux line fuel (pos + (oLen + q + cLen))
      | none => scanInlineAux line fuel (pos + 1)

/-- All inline matches of a line, as `(name, start, end)` triples. -/
def scanInline (line : List Char) : List (List Char × Nat × Nat) :=
  scanInlineAux line (line.length + 1) 0

/-- First index `i ≥ 0` with `l[i] = c1` and `l[i+1] = c2`, if any
(the search underlying Python `str.find` for a two-character pattern). -/
def findSub2From (c1 c2 : Char) : List Char → Option Nat
  | c :: d :: rest =>
    if c = c1 ∧ d = c2 then some 0
    else (findSub2From c1 c2 (d :: rest)).map (· + 1)
  | _ => none

/-- Last index `i` with `l[i] = c1` and `l[i+1] = c2`, if any
(the search underlying Python `str.rfind` for a two-character pattern). -/
def rfindSub2 (c1 c2 : Char) : List Char → Option Nat
  | c :: d :: rest =>
    match rfindSub2 c1 c2 (d :: rest) with
    | some i => some (i + 1)
    | none => if c = c1 ∧ d = c2 then some 0 else none
  | _ => none

/-- Python `line.find(c1c2, start)` (result `-1` when absent). -/
def pyFind2 (c1 c2 : Char) (line : List Char) (start : Nat) : Int :=
  match findSub2From c1 c2 (line.drop start) with
  | some i => (start : Int) + i
  | none => -1

/-- Python `line.rfind(c1c2, start, stop)` (result `-1` when absent). -/
def pyRFind2 (c1 c2 : Char) (line : List Char) (start stop : Nat) : Int :=
  match rfindSub2 c1 c2 ((line.drop start).take (stop - start)) with
  | some i => (start : Int) + i
  | none => -1

/-- Body of the `for match in matches` loop of `parse_inline_snippets`:
`opening_tag_end = line.find("-}", start_pos) + 2`,
`closing_tag_start = line.rfind("{-", start_pos, end_pos)`. -/
def mkInline (lineIdx : Nat) (line : List Char) (m : List Char × Nat × Nat) : InlineSnippet :=
  ⟨m.1, (lineIdx : Int) + 1, pyFind2 '-' '}' line m.2.1 + 2, pyRFind2 '{' '-' line m.2.1 m.2.2⟩

/-- All inline snippets of one line (`line_idx` is 0-indexed). -/
def parse_inline_line (lineIdx : Nat) (line : List Char) : List InlineSnippet :=
  (scanInline line).map (mkInline lineIdx line)

/-- The `for line_idx, line in enumerate(lines)` loop of
`parse_inline_snippets`. -/
def parseInlineAux : Nat → List (List Char) → List InlineSnippet
  | _, [] => []
  | idx, l :: rest => parse_inline_line idx l ++ parseInlineAux (idx + 1) rest

/-- `parse_inline_snippets(lines)`. -/
def parse_inline_snippets (lines : List (List Char)) : List InlineSnippet :=
  parseInlineAux 0 lines

/-- The snippet-combining step of `parse_file`:
`display_snippets + inline_snippets`. -/
def parseLines (lines : List (List Char)) : List Snippet :=
  (parse_display_snippets lines).1.map Snippet.display
    ++ (parse_inline_snippets lines).map Snippet.inline

/-- Result of `subprocess.run(cmd, capture_output=True, text=True)`. -/
structure ProcResult where
  returncode : Int
  stdout : List Char
  stderr : List Char

/-- The effectful surroundings of the program: file contents (as stripped
line lists, `none` when `os.path.exists` is false), existence of metadata
files, the external `katla` process, and whether writing the combined output
file succeeds. -/
structure Env where
  files : List Char → Option (List (List Char))
  ttmExists : List Char → Bool
  runner : List (List Char) → ProcResult
  writeOk : Bool

/-- `parse_file(filepath)`: a missing file yields `[]` (with a diagnostic),
otherwise display snippets followed by inline snippets. -/
def parse_file (env : Env) (fp : List Char) : List Snippet :=
  match env.files fp with
  | none => []
  | some lines => parseLines lines

/-- The `cmd` list built by `run_katla_command` (Python `str(...)` on the
offset arithmetic becomes `toString` on `Int`). -/
def katlaCmd (s : Snippet) (src ttm : List Char) : List (List Char) :=
  match s with
  | .display d =>
    ["katla".data, "latex".data, "macro".data, d.name, src, ttm,
     (toString (d.line_offset + 1)).data, "0".data, (toString (d.line_count - 1)).data]
  | .inline i =>
    ["katla".data, "latex".data, "macro".data, "inline".data, i.name, src, ttm,
     "0".data, (toString i.line_offset).data, (toString (i.column_start_offset + 1)).data,
     (toString i.column_end_offset).data]

/-- The `"% Error"` prefix tested by `main`'s success check. -/
def errMark : List Char := "% Error".data

/-- `run_katla_command(snippet, src_file, ttm_file, dry_run)`.  A raised
exception while spawning the process is indistinguishable in output from a
non-zero exit (both return the same placeholder), so the runner is modelled
as total. -/
def run_katla_command (env : Env) (s : Snippet) (src ttm : List Char) (dry : Bool) :
    List Char :=
  if dry then "% Dry run - would generate macro for ".data ++ s.sname ++ "\n".data
  else
    let r := env.runner (katlaCmd s src ttm)
    if r.returncode ≠ 0 then "% Error generating macro for ".data ++ s.sname ++ "\n".data
    else r.stdout

/-- Python `macro_output.endswith("\n")`. -/
def endsWithNl (l : List Char) : Bool := l.getLast? == some '\n'

/-- The text a successful snippet contributes to the combined document:
the dispatcher output, with a newline appended when it lacks a trailing
one (`if not macro_output.endswith("\n"): all_macro_content.append("\n")`). -/
def successFragment (out : List Char) : List Char :=
  if endsWithNl out then out else out ++ "\n".data

/-- Whether a fragment ends in exactly one newline: its last character is a
newline and the character before it is not. -/
def endsWithOneNl (l : List Char) : Bool :=
  endsWithNl l && !(l.dropLast.getLast? == some '\n')

/-- `main`'s per-snippet success test:
`macro_output and not macro_output.startswith("% Error")`. -/
def snippetOk (out : List Char) : Bool := !out.isEmpty && !(errMark.isPrefixOf out)

/-- The contribution of one dispatched snippet to `(total_success,
all_macro_content)` in `main`'s inner loop. -/
def snippetStep (out : List Char) : Nat × List (List Char) :=
  if snippetOk out then (1, [successFragment out])
  else if !out.isEmpty then (0, [out]) else (0, [])

/-- Whether dispatching a snippet in normal mode counts as successful. -/
def snippetSuccess (env : Env) (s : Snippet) (src ttm : List Char) : Bool :=
  snippetOk (run_katla_command env s src ttm false)

/-- `main`'s `for snippet in snippets` loop (normal mode): successes counted
and fragments collected in encounter order. -/
def processSnippets (env : Env) (src ttm : List Char) : List Snippet → Nat × List (List Char)
  | [] => (0, [])
  | s :: rest =>
    let step := snippetStep (run_katla_command env s src ttm false)
    let res := processSnippets env src ttm rest
    (step.1 + res.1, step.2 ++ res.2)

/-- Run-wide accumulator of `main`: the two counters and the growing
`all_macro_content`. -/
structure AggState where
  total_success : Nat
  total_snippets : Nat
  content : List (List Char)
  deriving Repr

/-- `f"% Macros from {src_file}\n"` (no brace survives interpolation). -/
def fileHeader (src : List Char) : List Char := "% Macros from ".data ++ src ++ "\n".data

/-- One iteration of `main`'s `for src_file, ttm_file in file_pairs` loop in
normal mode: skip when the source or metadata file is missing, otherwise
parse, dispatch every snippet, and extend counters and content. -/
def processPair (env : Env) (st : AggState) (pr : List Char × List Char) : AggState :=
  if (env.files pr.1).isNone then st
  else if !(env.ttmExists pr.2) then st
  else
    let snips := parse_file env pr.1
    let res := processSnippets env pr.1 pr.2 snips
    { total_success := st.total_success + res.1,
      total_snippets := st.total_snippets + snips.length,
      content := st.content ++ (if snips.isEmpty then [] else [fileHeader pr.1])
                   ++ res.2 ++ (if snips.isEmpty then [] else ["\n".data]) }

/-- `file_pairs = [(args.files[i], args.files[i+1]) for i in range(0, len, 2)]`. -/
def toPairs {α : Type} : List α → List (α × α)
  | a :: b :: rest => (a, b) :: toPairs rest
  | _ => []

/-- Observable outcome of `main` in normal mode. -/
structure MainResult where
  exitCode : Nat
  total_success : Nat
  total_snippets : Nat
  content : List (List Char)

/-- The fixed two-line header of the combined file. -/
def headerLines : List (List Char) :=
  ["% Generated LaTeX macros for all Idris files\n".data,
   "% Generated by gen-katla.py\n\n".data]

/-- `main()` in normal (non-dry-run) mode: odd argument count exits 1 before
processing; otherwise every pair is processed in order, the combined file is
written (exit 1 when that fails), and the exit status is 1 exactly when
`total_success < total_snippets`. -/
def mainRun (env : Env) (files : List (List Char)) : MainResult :=
  if files.length % 2 ≠ 0 then ⟨1, 0, 0, []⟩
  else
    let st := (toPairs files).foldl (processPair env) ⟨0, 0, headerLines⟩
    if !env.writeOk then ⟨1, st.total_success, st.total_snippets, st.content⟩
    else if st.total_success < st.total_snippets then
      ⟨1, st.total_success, st.total_snippets, st.content⟩
    else ⟨0, st.total_success, st.total_snippets, st.content⟩

/-! ### Generic helper lemmas -/

theorem takeWhile_all_append {p : Char → Bool} {xs : List Char} {y : Char} {ys : List Char}
    (hxs : ∀ c ∈ xs, p c = true) (hy : p y = false) :
    (xs ++ y :: ys).takeWhile p = xs := by
  induction xs with
  | nil => simp [List.takeWhile, hy]
  | cons c cs ih =>
    have hc : p c = true := hxs c (by simp)
    simp only [List.cons_append, List.takeWhile, hc]
    simp [ih (fun d hd => hxs d (by simp [hd]))]

theorem dropWhile_all_append {p : Char → Bool} {xs : List Char} {y : Char} {ys : List Char}
    (hxs : ∀ c ∈ xs, p c = true) (hy : p y = false) :
    (xs ++ y :: ys).dropWhile p = y :: ys := by
  induction xs with
  | nil => simp [List.dropWhile, hy]
  | cons c cs ih =>
    have hc : p c = true := hxs c (by simp)
    simp only [List.cons_append, List.dropWhile, hc]
    exact ih (fun d hd => hxs d (by simp [hd]))

theorem ws_not_special {c : Char} (h : isWs c = true) :
    c ≠ '-' ∧ c ≠ '}' ∧ c ≠ '{' ∧ c ≠ '<' ∧ c ≠ '>' ∧ c ≠ '/' := by
  refine ⟨?_, ?_, ?_, ?_, ?_, ?_⟩ <;> rintro rfl <;> simp [isWs] at h

theorem word_not_special {c : Char} (h : isWordChar c = true) :
    c ≠ '-' ∧ c ≠ '}' ∧ c ≠ '{' ∧ c ≠ '<' ∧ c ≠ '>' ∧ c ≠ '/' ∧ c ≠ '\n' := by
  refine ⟨?_, ?_, ?_, ?_, ?_, ?_, ?_⟩ <;> rintro rfl <;> simp [isWordChar] at h

/-! ### Display-grammar lemmas -/

theorem matchDisplayStart_canonical {nm : List Char} (hne : nm ≠ [])
    (hw : ∀ c ∈ nm, isWordChar c = true) :
    matchDisplayStart ("-- <".data ++ nm ++ ">".data) = some nm := by
  obtain ⟨a, nm', rfl⟩ := List.exists_cons_of_ne_nil hne
  have ha : isWordChar a = true := hw a (by simp)
  have htw : ((a :: nm') ++ '>' :: ([] : List Char)).takeWhile isWordChar = a :: nm' :=
    takeWhile_all_append hw (by simp [isWordChar])
  have hdw : (nm' ++ '>' :: ([] : List Char)).dropWhile isWordChar = ['>'] :=
    dropWhile_all_append (fun d hd => hw d (by simp [hd])) (by simp [isWordChar])
  simp only [matchDisplayStart, show ("-- <".data ++ (a :: nm') ++ ">".data) =
    '-' :: '-' :: (' ' :: '<' :: ((a :: nm') ++ '>' :: [])) by simp]
  simp only [List.dropWhile, show isWs ' ' = true from by simp [isWs],
    show isWs '<' = false from by simp [isWs]]
  rw [htw]
  simp only [ha, List.append_eq]
  rw [hdw]
  rfl

theorem matchDisplayEnd_canonical (nm : List Char) :
    matchDisplayEnd nm ("-- </".data ++ nm ++ ">".data) = true := by
  simp only [matchDisplayEnd, show ("-- </".data ++ nm ++ ">".data) =
    '-' :: '-' :: (' ' :: '<' :: '/' :: (nm ++ '>' :: [])) by simp]
  simp only [List.dropWhile, show isWs ' ' = true from by simp [isWs],
    show isWs '<' = false from by simp [isWs]]
  rw [List.take_left, List.drop_left]
  simp

theorem findCloseIdx_intro {nm : List Char} {ls : List (List Char)} {k : Nat} {lk : List Char}
    (hk : ls.get? k = some lk) (hm : matchDisplayEnd nm (stripLine lk) = true)
    (hfirst : ∀ m, m < k →
      (ls.get? m).all (fun l => !matchDisplayEnd nm (stripLine l)) = true) :
    findCloseIdx nm ls = some k := by
  induction ls generalizing k with
  | nil => simp at hk
  | cons l rest ih =>
    cases k with
    | zero =>
      simp only [List.get?] at hk
      cases hk
      simp [findCloseIdx, hm]
    | succ k =>
      have h0 := hfirst 0 (Nat.succ_pos k)
      simp only [List.get?, Option.all_some, Bool.not_eq_true'] at h0
      have hrest : findCloseIdx nm rest = some k :=
        ih hk (fun m hmk => hfirst (m + 1) (Nat.succ_lt_succ hmk))
      simp [findCloseIdx, h0, hrest]

theorem parseDisplayAux_cons_skip {i : Nat} {l : List Char} {rest : List (List Char)}
    (hms : matchDisplayStart (stripLine l) = none) :
    parseDisplayAux i (l :: rest) = parseDisplayAux (i + 1) rest := by
  simp [parseDisplayAux, hms]

theorem parseDisplayAux_cons_found {i : Nat} {l : List Char} {rest : List (List Char)}
    {nm : List Char} {k : Nat} (hms : matchDisplayStart (stripLine l) = some nm)
    (hfc : findCloseIdx nm rest = some k) :
    parseDisplayAux i (l :: rest) =
      (⟨nm, (i : Int) + 1, ((i + 1 + k : Nat) : Int) - i - 1⟩ ::
        (parseDisplayAux (i + 1) rest).1, (parseDisplayAux (i + 1) rest).2) := by
  simp [parseDisplayAux, hms, hfc]

theorem parseDisplayAux_cons_unclosed {i : Nat} {l : List Char} {rest : List (List Char)}
    {nm : List Char} (hms : matchDisplayStart (stripLine l) = some nm)
    (hfc : findCloseIdx nm rest = none) :
    parseDisplayAux i (l :: rest) =
      ((parseDisplayAux (i + 1) rest).1,
        (nm, (i : Int) + 1) :: (parseDisplayAux (i + 1) rest).2) := by
  simp [parseDisplayAux, hms, hfc]

theorem parseDisplayAux_mono {i : Nat} {l : List Char} {rest : List (List Char)}
    {s : DisplaySnippet} (h : s ∈ (parseDisplayAux (i + 1) rest).1) :
    s ∈ (parseDisplayAux i (l :: rest)).1 := by
  cases hms : matchDisplayStart (stripLine l) with
  | none => rw [parseDisplayAux_cons_skip hms]; exact h
  | some nm =>
    cases hfc : findCloseIdx nm rest with
    | some k => rw [parseDisplayAux_cons_found hms hfc]; exact List.mem_cons_of_mem _ h
    | none => rw [parseDisplayAux_cons_unclosed hms hfc]; exact h

theorem parseDisplayAux_complete {ls : List (List Char)} {i p : Nat} {lp nm : List Char}
    {k : Nat} (hget : ls.get? p = some lp)
    (hstart : matchDisplayStart (stripLine lp) = some nm)
    (hclose : findCloseIdx nm (ls.drop (p + 1)) = some k) :
    ∃ s ∈ (parseDisplayAux i ls).1,
      s.name = nm ∧ s.line_offset = (i : Int) + p + 1 ∧ s.line_count = (k : Int) := by
  induction ls generalizing i p with
  | nil => simp at hget
  | cons l rest ih =>
    cases p with
    | zero =>
      simp only [List.get?] at hget
      cases hget
      simp only [List.drop_succ_cons, List.drop_zero] at hclose
      refine ⟨⟨nm, (i : Int) + 1, ((i + 1 + k : Nat) : Int) - i - 1⟩, ?_, rfl, by push_cast; ring,
        by push_cast; ring⟩
      rw [parseDisplayAux_cons_found hstart hclose]
      exact List.mem_cons_self _ _
    | succ p =>
      simp only [List.get?] at hget
      simp only [List.drop_succ_cons] at hclose
      obtain ⟨s, hs, h1, h2, h3⟩ := ih (i := i + 1) hget hclose
      exact ⟨s, parseDisplayAux_mono hs, h1, by rw [h2]; push_cast; ring, h3⟩

theorem parseDisplayAux_sound {ls : List (List Char)} {i : Nat} {s : DisplaySnippet}
    (h : s ∈ (parseDisplayAux i ls).1) :
    ∃ p lp k, ls.get? p = some lp ∧ matchDisplayStart (stripLine lp) = some s.name ∧
      findCloseIdx s.name (ls.drop (p + 1)) = some k ∧
      s.line_offset = (i : Int) + p + 1 ∧ s.line_count = (k : Int) := by
  induction ls generalizing i with
  | nil => simp [parseDisplayAux] at h
  | cons l rest ih =>
    cases hms : matchDisplayStart (stripLine l) with
    | none =>
      rw [parseDisplayAux_cons_skip hms] at h
      obtain ⟨p, lp, k, h1, h2, h3, h4, h5⟩ := ih (i := i + 1) h
      exact ⟨p + 1, lp, k, h1, h2, by simpa using h3, by rw [h4]; push_cast; ring, h5⟩
    | some nm =>
      cases hfc : findCloseIdx nm rest with
      | some k =>
        rw [parseDisplayAux_cons_found hms hfc] at h
        rcases List.mem_cons.mp h with hh | ht
        · subst hh
          refine ⟨0, l, k, rfl, hms, by simpa using hfc, by push_cast; ring, by push_cast; ring⟩
        · obtain ⟨p, lp, k', h1, h2, h3, h4, h5⟩ := ih (i := i + 1) ht
          exact ⟨p + 1, lp, k', h1, h2, by simpa using h3, by rw [h4]; push_cast; ring, h5⟩
      | none =>
        rw [parseDisplayAux_cons_unclosed hms hfc] at h
        obtain ⟨p, lp, k', h1, h2, h3, h4, h5⟩ := ih (i := i + 1) h
        exact ⟨p + 1, lp, k', h1, h2, by simpa using h3, by rw [h4]; push_cast; ring, h5⟩

theorem parseDisplayAux_offset_lt {i : Nat} {ls : List (List Char)} :
    ∀ s ∈ (parseDisplayAux i ls).1, (i : Int) < s.line_offset := by
  intro s hs
  obtain ⟨p, lp, k, _, _, _, h4, _⟩ := parseDisplayAux_sound hs
  rw [h4]
  have : (0 : Int) ≤ (p : Int) := Int.natCast_nonneg p
  omega

theorem parseDisplayAux_pairwise {i : Nat} {ls : List (List Char)} :
    List.Pairwise (fun a b : DisplaySnippet => a.line_offset < b.line_offset)
      (parseDisplayAux i ls).1 := by
  induction ls generalizing i with
  | nil => simp [parseDisplayAux]
  | cons l rest ih =>
    cases hms : matchDisplayStart (stripLine l) with
    | none => rw [parseDisplayAux_cons_skip hms]; exact ih
    | some nm =>
      cases hfc : findCloseIdx nm rest with
      | some k =>
        rw [parseDisplayAux_cons_found hms hfc]
        refine List.Pairwise.cons ?_ ih
        intro b hb
        have hlt := parseDisplayAux_offset_lt b hb
        show (i : Int) + 1 < b.line_offset
        omega
      | none => rw [parseDisplayAux_cons_unclosed hms hfc]; exact ih

theorem parseDisplayAux_warn_mono {i : Nat} {l : List Char} {rest : List (List Char)}
    {w : List Char × Int} (h : w ∈ (parseDisplayAux (i + 1) rest).2) :
    w ∈ (parseDisplayAux i (l :: rest)).2 := by
  cases hms : matchDisplayStart (stripLine l) with
  | none => rw [parseDisplayAux_cons_skip hms]; exact h
  | some nm =>
    cases hfc : findCloseIdx nm rest with
    | some k => rw [parseDisplayAux_cons_found hms hfc]; exact h
    | none => rw [parseDisplayAux_cons_unclosed hms hfc]; exact List.mem_cons_of_mem _ h

theorem parseDisplayAux_warn_complete {ls : List (List Char)} {i p : Nat}
    {lp nm : List Char} (hget : ls.get? p = some lp)
    (hstart : matchDisplayStart (stripLine lp) = some nm)
    (hclose : findCloseIdx nm (ls.drop (p + 1)) = none) :
    (nm, (i : Int) + p + 1) ∈ (parseDisplayAux i ls).2 := by
  induction ls generalizing i p with
  | nil => simp at hget
  | cons l rest ih =>
    cases p with
    | zero =>
      simp only [List.get?] at hget
      cases hget
      simp only [List.drop_succ_cons, List.drop_zero] at hclose
      rw [parseDisplayAux_cons_unclosed hstart hclose]
      simp
    | succ p =>
      simp only [List.get?] at hget
      simp only [List.drop_succ_cons] at hclose
      have := ih (i := i + 1) hget hclose
      have harith : ((i + 1 : Nat) : Int) + p + 1 = (i : Int) + (p + 1 : Nat) + 1 := by
        push_cast; ring
      rw [harith] at this
      exact parseDisplayAux_warn_mono this

theorem parseDisplayAux_warn_sound {ls : List (List Char)} {i : Nat} {w : List Char × Int}
    (h : w ∈ (parseDisplayAux i ls).2) :
    ∃ p lp, ls.get? p = some lp ∧ matchDisplayStart (stripLine lp) = some w.1 ∧
      findCloseIdx w.1 (ls.drop (p + 1)) = none ∧ w.2 = (i : Int) + p + 1 := by
  induction ls generalizing i with
  | nil => simp [parseDisplayAux] at h
  | cons l rest ih =>
    cases hms : matchDisplayStart (stripLine l) with
    | none =>
      rw [parseDisplayAux_cons_skip hms] at h
      obtain ⟨p, lp, h1, h2, h3, h4⟩ := ih (i := i + 1) h
      exact ⟨p + 1, lp, h1, h2, by simpa using h3, by rw [h4]; push_cast; ring⟩
    | some nm =>
      cases hfc : findCloseIdx nm rest with
      | some k =>
        rw [parseDisplayAux_cons_found hms hfc] at h
        obtain ⟨p, lp, h1, h2, h3, h4⟩ := ih (i := i + 1) h
        exact ⟨p + 1, lp, h1, h2, by simpa using h3, by rw [h4]; push_cast; ring⟩
      | none =>
        rw [parseDisplayAux_cons_unclosed hms hfc] at h
        rcases List.mem_cons.mp h with hh | ht
        · subst hh
          exact ⟨0, l, rfl, hms, by simpa using hfc, by push_cast; ring⟩
        · obtain ⟨p, lp, h1, h2, h3, h4⟩ := ih (i := i + 1) ht
          exact ⟨p + 1, lp, h1, h2, by simpa using h3, by rw [h4]; push_cast; ring⟩

theorem parseDisplayAux_warn_snd_lt {i : Nat} {ls : List (List Char)} :
    ∀ w ∈ (parseDisplayAux i ls).2, (i : Int) < w.2 := by
  intro w hw
  obtain ⟨p, lp, _, _, _, h4⟩ := parseDisplayAux_warn_sound hw
  rw [h4]
  have : (0 : Int) ≤ (p : Int) := Int.natCast_nonneg p
  omega

theorem parseDisplayAux_warn_pairwise {i : Nat} {ls : List (List Char)} :
    List.Pairwise (fun a b : List Char × Int => a.2 < b.2) (parseDisplayAux i ls).2 := by
  induction ls generalizing i with
  | nil => simp [parseDisplayAux]
  | cons l rest ih =>
    cases hms : matchDisplayStart (stripLine l) with
    | none => rw [parseDisplayAux_cons_skip hms]; exact ih
    | some nm =>
      cases hfc : findCloseIdx nm rest with
      | some k => rw [parseDisplayAux_cons_found hms hfc]; exact ih
      | none =>
        rw [parseDisplayAux_cons_unclosed hms hfc]
        refine List.Pairwise.cons ?_ ih
        intro b hb
        have hlt := parseDisplayAux_warn_snd_lt b hb
        show (i : Int) + 1 < b.2
        omega

/-! ### Claims C1, C4, C6, C9: the display parser -/

/-- C1: for a display pair whose opening marker line (trimmed) is `-- <NAME>`
at 0-indexed line `L` and whose first subsequent matching closing line
(trimmed) is `-- </NAME>` at 0-indexed line `L+k+1`, the parser emits a
DisplaySnippet with `line_offset = L+1` and `line_count = k`; moreover
`line_count` is never negative. -/
theorem c1_display_pair (lines : List (List Char)) (nm lop lcl : List Char) (L k : Nat)
    (hne : nm ≠ []) (hword : ∀ c ∈ nm, isWordChar c = true)
    (hopen : lines.get? L = some lop)
    (hopenEq : stripLine lop = "-- <".data ++ nm ++ ">".data)
    (hclose : lines.get? (L + k + 1) = some lcl)
    (hcloseEq : stripLine lcl = "-- </".data ++ nm ++ ">".data)
    (hfirst : ∀ m, m < k →
      ((lines.drop (L + 1)).get? m).all (fun l => !matchDisplayEnd nm (stripLine l)) = true) :
    (∃ s ∈ (parse_display_snippets lines).1,
        s.name = nm ∧ s.line_offset = (L : Int) + 1 ∧ s.line_count = (k : Int))
    ∧ ∀ s ∈ (parse_display_snippets lines).1, 0 ≤ s.line_count := by
  constructor
  · have hstart : matchDisplayStart (stripLine lop) = some nm := by
      rw [hopenEq]; exact matchDisplayStart_canonical hne hword
    have hgetk : (lines.drop (L + 1)).get? k = some lcl := by
      rw [show lines.get? (L + k + 1) = (lines.drop (L + 1)).get? k from by
        simp [List.get?_drop]; congr 1; omega] at hclose
      exact hclose
    have hcl : findCloseIdx nm (lines.drop (L + 1)) = some k :=
      findCloseIdx_intro hgetk (by rw [hcloseEq]; exact matchDisplayEnd_canonical nm) hfirst
    obtain ⟨s, hs, h1, h2, h3⟩ := parseDisplayAux_complete (i := 0) hopen hstart hcl
    exact ⟨s, hs, h1, by rw [h2]; push_cast; ring, h3⟩
  · intro s hs
    obtain ⟨p, lp, k', _, _, _, _, h5⟩ := parseDisplayAux_sound hs
    rw [h5]
    exact Int.natCast_nonneg k'

/-- C1 witness: a concrete pair (`L = 1`, `k = 2`). -/
theorem c1_display_pair_witness :
    (∃ s ∈ (parse_display_snippets
        ["x".data, "-- <a>".data, "p".data, "q".data, "-- </a>".data]).1,
      s.name = "a".data ∧ s.line_offset = (1 : Int) + 1 ∧ s.line_count = ((2 : Nat) : Int))
    ∧ ∀ s ∈ (parse_display_snippets
        ["x".data, "-- <a>".data, "p".data, "q".data, "-- </a>".data]).1,
      0 ≤ s.line_count :=
  c1_display_pair _ "a".data "-- <a>".data "-- </a>".data 1 2
    (by decide) (by decide) (by decide) (by decide) (by decide) (by decide) (by decide)

/-- C4 counterexample: for an opening marker on 1-indexed line `M = 1`
(0-indexed line 0), the produced snippet has `line_offset = 1 = M`, not
`M + 1 = 2` as the claim states. -/
theorem c4_counterexample :
    (["-- <a>".data, "x".data, "-- </a>".data] : List (List Char)).get? 0 =
        some ("-- <a>".data)
    ∧ (parse_display_snippets ["-- <a>".data, "x".data, "-- </a>".data]).1 =
        [⟨"a".data, 1, 1⟩]
    ∧ ¬ ∃ s ∈ (parse_display_snippets ["-- <a>".data, "x".data, "-- </a>".data]).1,
        s.line_offset = (1 : Int) + 1 := by
  refine ⟨by decide, by decide, ?_⟩
  rintro ⟨s, hs, hoff⟩
  rw [show (parse_display_snippets ["-- <a>".data, "x".data, "-- </a>".data]).1 =
    [⟨"a".data, 1, 1⟩] from by decide] at hs
  simp only [List.mem_singleton] at hs
  subst hs
  exact absurd hoff (by decide)

/-- C4 amended: every DisplaySnippet's `line_offset` equals the 0-indexed
line number of its opening marker plus one — i.e. the 1-indexed line number
of the opening marker itself (equivalently, the 0-indexed line number of the
first content line), not the 1-indexed number of the first content line. -/
theorem c4_line_offset_amended (lines : List (List Char)) :
    ∀ s ∈ (parse_display_snippets lines).1,
      ∃ L lp k, lines.get? L = some lp ∧ matchDisplayStart (stripLine lp) = some s.name ∧
        findCloseIdx s.name (lines.drop (L + 1)) = some k ∧
        s.line_offset = (L : Int) + 1 := by
  intro s hs
  obtain ⟨p, lp, k, h1, h2, h3, h4, _⟩ := parseDisplayAux_sound hs
  exact ⟨p, lp, k, h1, h2, h3, by rw [h4]; push_cast; ring⟩

/-- C4 witness: the amended statement applied to a concrete file. -/
theorem c4_line_offset_amended_witness :
    ∃ L lp k,
      (["-- <a>".data, "x".data, "-- </a>".data] : List (List Char)).get? L = some lp ∧
      matchDisplayStart (stripLine lp) = some (⟨"a".data, 1, 1⟩ : DisplaySnippet).name ∧
      findCloseIdx (⟨"a".data, 1, 1⟩ : DisplaySnippet).name
        ((["-- <a>".data, "x".data, "-- </a>".data] : List (List Char)).drop (L + 1)) =
          some k ∧
      (⟨"a".data, 1, 1⟩ : DisplaySnippet).line_offset = (L : Int) + 1 :=
  c4_line_offset_amended ["-- <a>".data, "x".data, "-- </a>".data] ⟨"a".data, 1, 1⟩
    (by decide)

/-- C6: an opening display marker with no matching closing marker in the
remaining lines yields no snippet record (none with its `line_offset`),
exactly one diagnostic, and parsing of the rest of the file continues (every
other properly closed marker still yields its record). -/
theorem c6_unclosed_marker (lines : List (List Char)) (nm lop : List Char) (L : Nat)
    (h1 : lines.get? L = some lop)
    (h2 : matchDisplayStart (stripLine lop) = some nm)
    (h3 : findCloseIdx nm (lines.drop (L + 1)) = none) :
    (∀ s ∈ (parse_display_snippets lines).1, s.line_offset ≠ (L : Int) + 1)
    ∧ ((parse_display_snippets lines).2.filter
        (fun w => decide (w = (nm, (L : Int) + 1)))).length = 1
    ∧ ∀ (M k2 : Nat) (lm nm2 : List Char), lines.get? M = some lm →
        matchDisplayStart (stripLine lm) = some nm2 →
        findCloseIdx nm2 (lines.drop (M + 1)) = some k2 →
        ∃ s ∈ (parse_display_snippets lines).1,
          s.name = nm2 ∧ s.line_offset = (M : Int) + 1 ∧ s.line_count = (k2 : Int) := by
  refine ⟨?_, ?_, ?_⟩
  · intro s hs heq
    obtain ⟨p, lp, k, hp1, hp2, hp3, hp4, _⟩ := parseDisplayAux_sound hs
    have hpL : p = L := by
      rw [hp4] at heq
      have : (p : Int) = (L : Int) := by omega
      exact_mod_cast this
    subst hpL
    rw [h1] at hp1
    cases hp1
    rw [h2] at hp2
    cases hp2
    rw [h3] at hp3
    cases hp3
  · have hmem : (nm, (L : Int) + 1) ∈ (parse_display_snippets lines).2 := by
      have := parseDisplayAux_warn_complete (i := 0) h1 h2 h3
      simpa [parse_display_snippets] using this
    have hnodup : (parse_display_snippets lines).2.Nodup :=
      parseDisplayAux_warn_pairwise.imp
        (fun hab => fun he => by subst he; exact lt_irrefl _ hab)
    have h1 := List.count_eq_one_of_mem hnodup hmem
    simpa [List.count_eq_countP, List.countP_eq_length_filter] using h1
  · intro M k2 lm nm2 hm1 hm2 hm3
    obtain ⟨s, hs, hh1, hh2, hh3⟩ := parseDisplayAux_complete (i := 0) hm1 hm2 hm3
    exact ⟨s, hs, hh1, by rw [hh2]; push_cast; ring, hh3⟩

/-- C6 witness: a concrete unclosed marker (line 0, name `a`), with a
properly closed marker `b` later in the same file still being parsed. -/
theorem c6_unclosed_marker_witness :
    (∀ s ∈ (parse_display_snippets
        ["-- <a>".data, "x".data, "-- <b>".data, "-- </b>".data]).1,
      s.line_offset ≠ (0 : Int) + 1)
    ∧ ((parse_display_snippets
        ["-- <a>".data, "x".data, "-- <b>".data, "-- </b>".data]).2.filter
          (fun w => decide (w = ("a".data, (0 : Int) + 1)))).length = 1 := by
  have h := c6_unclosed_marker
    ["-- <a>".data, "x".data, "-- <b>".data, "-- </b>".data]
    "a".data "-- <a>".data 0 (by decide) (by decide) (by decide)
  exact ⟨h.1, h.2.1⟩

/-- C9: the display scan does not skip over matched spans — an inner opening
marker strictly between a matched opening marker and its closing marker is
processed independently and yields its own record, in addition to the
enclosing snippet. -/
theorem c9_nested_display (lines : List (List Char)) (nm nm2 lop lin : List Char)
    (L k M k2 : Nat)
    (houter : lines.get? L = some lop)
    (hom : matchDisplayStart (stripLine lop) = some nm)
    (hoc : findCloseIdx nm (lines.drop (L + 1)) = some k)
    (_hlo : L < M) (_hhi : M < L + 1 + k)
    (hinner : lines.get? M = some lin)
    (him : matchDisplayStart (stripLine lin) = some nm2)
    (hic : findCloseIdx nm2 (lines.drop (M + 1)) = some k2) :
    (∃ s ∈ (parse_display_snippets lines).1,
        s.name = nm ∧ s.line_offset = (L : Int) + 1 ∧ s.line_count = (k : Int))
    ∧ ∃ s ∈ (parse_display_snippets lines).1,
        s.name = nm2 ∧ s.line_offset = (M : Int) + 1 ∧ s.line_count = (k2 : Int) := by
  constructor
  · obtain ⟨s, hs, hh1, hh2, hh3⟩ := parseDisplayAux_complete (i := 0) houter hom hoc
    exact ⟨s, hs, hh1, by rw [hh2]; push_cast; ring, hh3⟩
  · obtain ⟨s, hs, hh1, hh2, hh3⟩ := parseDisplayAux_complete (i := 0) hinner him hic
    exact ⟨s, hs, hh1, by rw [hh2]; push_cast; ring, hh3⟩

/-- C9 witness: `-- <b>` nested inside `-- <a>`/`-- </a>`; both records are
produced. -/
theorem c9_nested_display_witness :
    (∃ s ∈ (parse_display_snippets
        ["-- <a>".data, "-- <b>".data, "x".data, "-- </b>".data, "-- </a>".data]).1,
      s.name = "a".data ∧ s.line_offset = (0 : Int) + 1 ∧ s.line_count = ((3 : Nat) : Int))
    ∧ ∃ s ∈ (parse_display_snippets
        ["-- <a>".data, "-- <b>".data, "x".data, "-- </b>".data, "-- </a>".data]).1,
      s.name = "b".data ∧ s.line_offset = (1 : Int) + 1 ∧ s.line_count = ((1 : Nat) : Int) :=
  c9_nested_display
    ["-- <a>".data, "-- <b>".data, "x".data, "-- </b>".data, "-- </a>".data]
    "a".data "b".data "-- <a>".data "-- <b>".data 0 3 1 1
    (by decide) (by decide) (by decide) (by decide) (by decide) (by decide) (by decide)
    (by decide)

/-! ### Claim C2: the dispatcher's renderer invocation -/

/-- C2: the dispatcher builds exactly one invocation per snippet, with
positional parameters `(name, src, ttm, line_offset + 1, 0, line_count − 1)`
for a display snippet and `(inline, name, src, ttm, 0, line_offset,
column_start_offset + 1, column_end_offset)` for an inline snippet; in
particular `line_offset = 10, line_count = 3` yields `..., 11, 0, 2` and
`line_offset = 7, column_start_offset = 4, column_end_offset = 9` yields
`..., 0, 7, 5, 9`. -/
theorem c2_dispatch_params :
    (∀ (nm src ttm : List Char) (lo lc : Int),
      katlaCmd (.display ⟨nm, lo, lc⟩) src ttm =
        ["katla".data, "latex".data, "macro".data, nm, src, ttm,
         (toString (lo + 1)).data, "0".data, (toString (lc - 1)).data])
    ∧ (∀ (nm src ttm : List Char) (lo cs ce : Int),
      katlaCmd (.inline ⟨nm, lo, cs, ce⟩) src ttm =
        ["katla".data, "latex".data, "macro".data, "inline".data, nm, src, ttm,
         "0".data, (toString lo).data, (toString (cs + 1)).data, (toString ce).data])
    ∧ katlaCmd (.display ⟨"d".data, 10, 3⟩) "s".data "t".data =
        ["katla".data, "latex".data, "macro".data, "d".data, "s".data, "t".data,
         "11".data, "0".data, "2".data]
    ∧ katlaCmd (.inline ⟨"i".data, 7, 4, 9⟩) "s".data "t".data =
        ["katla".data, "latex".data, "macro".data, "inline".data, "i".data, "s".data,
         "t".data, "0".data, "7".data, "5".data, "9".data] :=
  ⟨fun _ _ _ _ _ => rfl, fun _ _ _ _ _ _ => rfl, by decide, by decide⟩

/-! ### Inline-grammar lemmas -/

/-- The shape of an inline opening marker with explicit whitespace runs. -/
def openerOf (nm w1 w2 : List Char) : List Char :=
  '{' :: '-' :: (w1 ++ '<' :: (nm ++ '>' :: (w2 ++ ['-', '}'])))

/-- The shape of an inline closing marker with explicit whitespace runs. -/
def closerOf (nm w3 w4 : List Char) : List Char :=
  '{' :: '-' :: (w3 ++ '<' :: '/' :: (nm ++ '>' :: (w4 ++ ['-', '}'])))

theorem parseOpener_canonical {nm w1 w2 : List Char} (rest : List Char) (hne : nm ≠ [])
    (hword : ∀ ch ∈ nm, isWordChar ch = true)
    (hw1 : ∀ ch ∈ w1, isWs ch = true) (hw2 : ∀ ch ∈ w2, isWs ch = true) :
    parseOpener (openerOf nm w1 w2 ++ rest) = some (nm, (openerOf nm w1 w2).length) := by
  obtain ⟨a, nm', rfl⟩ := List.exists_cons_of_ne_nil hne
  have ha : isWordChar a = true := hword a (by simp)
  have hshape : openerOf (a :: nm') w1 w2 ++ rest =
      '{' :: '-' :: (w1 ++ '<' :: ((a :: nm') ++ '>' :: (w2 ++ '-' :: '}' :: rest))) := by
    simp [openerOf]
  have htw1 : (w1 ++ '<' :: ((a :: nm') ++ '>' :: (w2 ++ '-' :: '}' :: rest))).takeWhile isWs
      = w1 := takeWhile_all_append hw1 (by simp [isWs])
  have hdw1 : (w1 ++ '<' :: ((a :: nm') ++ '>' :: (w2 ++ '-' :: '}' :: rest))).dropWhile isWs
      = '<' :: ((a :: nm') ++ '>' :: (w2 ++ '-' :: '}' :: rest)) :=
    dropWhile_all_append hw1 (by simp [isWs])
  have htwn : (((a :: nm') ++ '>' :: (w2 ++ '-' :: '}' :: rest))).takeWhile isWordChar
      = a :: nm' := takeWhile_all_append hword (by simp [isWordChar])
  have hdwn : ((nm' ++ '>' :: (w2 ++ '-' :: '}' :: rest))).dropWhile isWordChar
      = '>' :: (w2 ++ '-' :: '}' :: rest) :=
    dropWhile_all_append (fun d hd => hword d (by simp [hd])) (by simp [isWordChar])
  have htw2 : (w2 ++ '-' :: '}' :: rest).takeWhile isWs = w2 :=
    takeWhile_all_append hw2 (by simp [isWs])
  have hdw2 : (w2 ++ '-' :: '}' :: rest).dropWhile isWs = '-' :: '}' :: rest :=
    dropWhile_all_append hw2 (by simp [isWs])
  rw [hshape]
  simp only [parseOpener, htw1, hdw1]
  rw [htwn]
  simp only [List.takeWhile, List.dropWhile, ha, List.cons_append, List.append_eq]
  rw [hdwn]
  simp only [htw2, hdw2]
  simp [openerOf, List.length_append]
  omega

theorem parseCloser_canonical {nm w3 w4 : List Char} (rest : List Char)
    (hw3 : ∀ ch ∈ w3, isWs ch = true) (hw4 : ∀ ch ∈ w4, isWs ch = true) :
    parseCloser nm (closerOf nm w3 w4 ++ rest) = some (closerOf nm w3 w4).length := by
  have hshape : closerOf nm w3 w4 ++ rest =
      '{' :: '-' :: (w3 ++ '<' :: '/' :: (nm ++ '>' :: (w4 ++ '-' :: '}' :: rest))) := by
    simp [closerOf]
  have htw3 : (w3 ++ '<' :: '/' :: (nm ++ '>' :: (w4 ++ '-' :: '}' :: rest))).takeWhile isWs
      = w3 := takeWhile_all_append hw3 (by simp [isWs])
  have hdw3 : (w3 ++ '<' :: '/' :: (nm ++ '>' :: (w4 ++ '-' :: '}' :: rest))).dropWhile isWs
      = '<' :: '/' :: (nm ++ '>' :: (w4 ++ '-' :: '}' :: rest)) :=
    dropWhile_all_append hw3 (by simp [isWs])
  have htake : (nm ++ '>' :: (w4 ++ '-' :: '}' :: rest)).take nm.length = nm :=
    List.take_left nm _
  have hdrop : (nm ++ '>' :: (w4 ++ '-' :: '}' :: rest)).drop nm.length =
      '>' :: (w4 ++ '-' :: '}' :: rest) := List.drop_left nm _
  have htw4 : (w4 ++ '-' :: '}' :: rest).takeWhile isWs = w4 :=
    takeWhile_all_append hw4 (by simp [isWs])
  have hdw4 : (w4 ++ '-' :: '}' :: rest).dropWhile isWs = '-' :: '}' :: rest :=
    dropWhile_all_append hw4 (by simp [isWs])
  rw [hshape]
  simp only [parseCloser, htw3, hdw3, htake, hdrop, if_pos rfl, htw4, hdw4]
  simp [closerOf, List.length_append]
  omega

theorem findCloserFrom_exact {nm : List Char} (TEXT Z : List Char) (cLen : Nat)
    (hZ : parseCloser nm Z = some cLen)
    (hNo : ∀ q < TEXT.length, parseCloser nm ((TEXT ++ Z).drop q) = none) :
    findCloserFrom nm (TEXT ++ Z) = some (TEXT.length, cLen) := by
  induction TEXT with
  | nil =>
    cases Z with
    | nil => simp [parseCloser] at hZ
    | cons z zs => simpa [findCloserFrom, hZ] using rfl
  | cons t ts ih =>
    have h0 : parseCloser nm (t :: (ts ++ Z)) = none := by
      have := hNo 0 (by simp)
      simpa using this
    have hrec : findCloserFrom nm (ts ++ Z) = some (ts.length, cLen) :=
      ih (fun q hq => by
        have := hNo (q + 1) (by simpa using Nat.succ_lt_succ hq)
        simpa using this)
    simp [findCloserFrom, h0, hrec]

theorem find2_cons_not {c1 c2 c : Char} {l : List Char} (h : c = c1 → l.head? ≠ some c2) :
    findSub2From c1 c2 (c :: l) = (findSub2From c1 c2 l).map (· + 1) := by
  cases l with
  | nil => simp [findSub2From]
  | cons d rest =>
    have hcc : ¬(c = c1 ∧ d = c2) := fun ⟨h1, h2⟩ => h h1 (by simp [h2])
    simp [findSub2From, hcc]

theorem find2_append_no_c1 {c1 c2 : Char} {xs : List Char} (l : List Char)
    (h : ∀ c ∈ xs, c ≠ c1) :
    findSub2From c1 c2 (xs ++ l) = (findSub2From c1 c2 l).map (· + xs.length) := by
  induction xs with
  | nil => cases hf : findSub2From c1 c2 l <;> simp [hf]
  | cons c cs ih =>
    rw [List.cons_append, find2_cons_not (fun hc => absurd hc (h c (by simp)))]
    rw [ih (fun d hd => h d (by simp [hd]))]
    cases hf : findSub2From c1 c2 l <;> simp [hf] <;> omega

theorem find2_opener {nm w1 w2 : List Char} (tail : List Char) (hne : nm ≠ [])
    (hword : ∀ ch ∈ nm, isWordChar ch = true)
    (hw1 : ∀ ch ∈ w1, isWs ch = true) (hw2 : ∀ ch ∈ w2, isWs ch = true) :
    findSub2From '-' '}' (openerOf nm w1 w2 ++ tail) =
      some (2 + (w1.length + 1 + nm.length + 1 + w2.length)) := by
  have hys : ∀ c ∈ w1 ++ '<' :: (nm ++ '>' :: w2), c ≠ '-' ∧ c ≠ '}' := by
    intro c hc
    rcases List.mem_append.mp hc with hc1 | hc2
    · have := ws_not_special (hw1 c hc1); exact ⟨this.1, this.2.1⟩
    · rcases List.mem_cons.mp hc2 with rfl | hc3
      · constructor <;> decide
      · rcases List.mem_append.mp hc3 with hc4 | hc5
        · have := word_not_special (hword c hc4); exact ⟨this.1, this.2.1⟩
        · rcases List.mem_cons.mp hc5 with rfl | hc6
          · constructor <;> decide
          · have := ws_not_special (hw2 c hc6); exact ⟨this.1, this.2.1⟩
  have hshape : openerOf nm w1 w2 ++ tail =
      '{' :: '-' :: ((w1 ++ '<' :: (nm ++ '>' :: w2)) ++ '-' :: '}' :: tail) := by
    simp [openerOf]
  rw [hshape]
  rw [find2_cons_not (fun hc => absurd hc (by decide))]
  rw [find2_cons_not (c := '-')
    (fun _ => by
      cases hw : w1 ++ '<' :: (nm ++ '>' :: w2) with
      | nil => simp at hw
      | cons y ys =>
        have hy : y ∈ w1 ++ '<' :: (nm ++ '>' :: w2) := by rw [hw]; simp
        have := (hys y hy).2
        simp [hw]
        exact this)]
  rw [find2_append_no_c1 _ (fun c hc => (hys c hc).1)]
  simp [findSub2From, List.length_append]
  omega

theorem rfind2_none_no_c1 {c1 c2 : Char} {l : List Char} (h : ∀ c ∈ l, c ≠ c1) :
    rfindSub2 c1 c2 l = none := by
  induction l with
  | nil => simp [rfindSub2]
  | cons c cs ih =>
    cases cs with
    | nil => simp [rfindSub2]
    | cons d rest =>
      have hrec : rfindSub2 c1 c2 (d :: rest) = none := ih (fun x hx => h x (by simp [hx]))
      have hcc : ¬(c = c1 ∧ d = c2) := fun ⟨h1, _⟩ => h c (by simp) h1
      simp [rfindSub2, hrec, hcc]

theorem rfind2_append_some {c1 c2 : Char} {zs : List Char} {j : Nat} (xs : List Char)
    (h : rfindSub2 c1 c2 zs = some j) :
    rfindSub2 c1 c2 (xs ++ zs) = some (xs.length + j) := by
  induction xs with
  | nil => simpa using h
  | cons x xs' ih =>
    have hne : xs' ++ zs ≠ [] := by
      intro hemp
      rcases List.append_eq_nil.mp hemp with ⟨_, hz⟩
      rw [hz] at h
      simp [rfindSub2] at h
    obtain ⟨d, rest, hdr⟩ := List.exists_cons_of_ne_nil hne
    rw [List.cons_append, hdr]
    have ih' := ih
    rw [hdr] at ih'
    simp [rfindSub2, ih']
    omega

theorem rfind2_closer {nm w3 w4 : List Char}
    (hword : ∀ ch ∈ nm, isWordChar ch = true)
    (hw3 : ∀ ch ∈ w3, isWs ch = true) (hw4 : ∀ ch ∈ w4, isWs ch = true) :
    rfindSub2 '{' '-' (closerOf nm w3 w4) = some 0 := by
  have hno : ∀ c ∈ '-' :: (w3 ++ '<' :: '/' :: (nm ++ '>' :: (w4 ++ ['-', '}']))), c ≠ '{' := by
    intro c hc
    rcases List.mem_cons.mp hc with rfl | hc1
    · decide
    rcases List.mem_append.mp hc1 with hc2 | hc3
    · exact (ws_not_special (hw3 c hc2)).2.2.1
    rcases List.mem_cons.mp hc3 with rfl | hc4
    · decide
    rcases List.mem_cons.mp hc4 with rfl | hc5
    · decide
    rcases List.mem_append.mp hc5 with hc6 | hc7
    · exact (word_not_special (hword c hc6)).2.2.1
    rcases List.mem_cons.mp hc7 with rfl | hc8
    · decide
    rcases List.mem_append.mp hc8 with hc9 | hc10
    · exact (ws_not_special (hw4 c hc9)).2.2.1
    rcases List.mem_cons.mp hc10 with rfl | hc11
    · decide
    rcases List.mem_cons.mp hc11 with rfl | hc12
    · decide
    · simp at hc12
  have hrec : rfindSub2 '{' '-'
      ('-' :: (w3 ++ '<' :: '/' :: (nm ++ '>' :: (w4 ++ ['-', '}'])))) = none :=
    rfind2_none_no_c1 hno
  show rfindSub2 '{' '-'
    ('{' :: '-' :: (w3 ++ '<' :: '/' :: (nm ++ '>' :: (w4 ++ ['-', '}'])))) = some 0
  simp [rfindSub2, hrec]

theorem parseInlineAux_mem {ls : List (List Char)} {i p : Nat} {l : List Char}
    {s : InlineSnippet} (hget : ls.get? p = some l)
    (hs : s ∈ parse_inline_line (i + p) l) :
    s ∈ parseInlineAux i ls := by
  induction ls generalizing i p with
  | nil => simp at hget
  | cons hd tl ih =>
    cases p with
    | zero =>
      simp only [List.get?] at hget
      cases hget
      simp only [Nat.add_zero] at hs
      simp only [parseInlineAux, List.mem_append]
      exact Or.inl hs
    | succ p =>
      simp only [List.get?] at hget
      have hs' : s ∈ parse_inline_line ((i + 1) + p) l := by
        have : i + (p + 1) = (i + 1) + p := by omega
        rwa [this] at hs
      simp only [parseInlineAux, List.mem_append]
      exact Or.inr (ih hget hs')

theorem scanInlineAux_stop (line : List Char) (fuel : Nat) :
    scanInlineAux line fuel line.length = [] := by
  cases fuel with
  | zero => rfl
  | succ f => simp [scanInlineAux]

theorem scanInlineAux_match_step (line : List Char) (fuel pos : Nat)
    (hpos : pos < line.length) (nm : List Char) (oLen q cLen : Nat)
    (hm : matchInlineAt (line.drop pos) = some (nm, oLen, q, cLen)) :
    scanInlineAux line (fuel + 1) pos =
      (nm, pos, pos + (oLen + q + cLen)) ::
        scanInlineAux line fuel (pos + (oLen + q + cLen)) := by
  rw [scanInlineAux]
  rw [if_neg (by omega)]
  rw [hm]

/-! ### Claim C3: the inline parser's column offsets -/

theorem pyFind2_eq {c1 c2 : Char} {line : List Char} {start j : Nat}
    (h : findSub2From c1 c2 (line.drop start) = some j) :
    pyFind2 c1 c2 line start = (start : Int) + j := by
  rw [pyFind2, h]

theorem pyRFind2_eq {c1 c2 : Char} {line : List Char} {start stop j : Nat}
    (h : rfindSub2 c1 c2 ((line.drop start).take (stop - start)) = some j) :
    pyRFind2 c1 c2 line start stop = (start : Int) + j := by
  rw [pyRFind2, h]

theorem scanInlineAux_reach {line : List Char} {P : Nat} {nm : List Char}
    {oLen q cLen : Nat} (hP : P < line.length)
    (hm : matchInlineAt (line.drop P) = some (nm, oLen, q, cLen)) :
    ∀ fuel pos, pos ≤ P → P - pos < fuel →
      (∀ p, pos ≤ p → p < P → matchInlineAt (line.drop p) = none) →
      (nm, P, P + (oLen + q + cLen)) ∈ scanInlineAux line fuel pos := by
  intro fuel
  induction fuel with
  | zero =>
    intro pos h1 h2 h3
    omega
  | succ f ih =>
    intro pos hle hfuel hnone
    have hpos : ¬ line.length ≤ pos := by omega
    rw [scanInlineAux, if_neg hpos]
    by_cases hpP : pos = P
    · subst hpP
      rw [hm]
      exact List.mem_cons_self _ _
    · have hplt : pos < P := by omega
      rw [hnone pos (Nat.le_refl _) hplt]
      exact ih (pos + 1) (by omega) (by omega) (fun p hp1 hp2 => hnone p (by omega) hp2)

/-- C3: for every line containing an inline match
`\x7b- <NAME> -\x7dTEXT\x7b- </NAME> -\x7d` — embedded between an arbitrary
prefix (in which no match of the inline pattern starts, so this is the
leftmost match) and an arbitrary suffix — the inline parser yields an
InlineSnippet whose `column_start_offset` is the character index immediately
after the opening marker's closing delimiter `-\x7d`, whose
`column_end_offset` is the character index of the closing marker's opening
delimiter `\x7b-`, slicing the original line between the two offsets recovers
exactly TEXT, and `line_offset` is the 1-indexed line number. -/
theorem c3_inline_offsets (nm w1 w2 w3 w4 pre TEXT post : List Char) (idx : Nat)
    (hne : nm ≠ []) (hword : ∀ ch ∈ nm, isWordChar ch = true)
    (hw1 : ∀ ch ∈ w1, isWs ch = true) (hw2 : ∀ ch ∈ w2, isWs ch = true)
    (hw3 : ∀ ch ∈ w3, isWs ch = true) (hw4 : ∀ ch ∈ w4, isWs ch = true)
    (hTnl : ∀ ch ∈ TEXT, ch ≠ '\n')
    (hNo : ∀ q < TEXT.length,
      parseCloser nm ((TEXT ++ (closerOf nm w3 w4 ++ post)).drop q) = none)
    (hpre : ∀ p < pre.length,
      matchInlineAt
        ((pre ++ openerOf nm w1 w2 ++ TEXT ++ closerOf nm w3 w4 ++ post).drop p) = none) :
    (⟨nm, (idx : Int) + 1, (pre.length : Int) + (openerOf nm w1 w2).length,
        (pre.length : Int) + (openerOf nm w1 w2).length + TEXT.length⟩ : InlineSnippet) ∈
      parse_inline_line idx
        (pre ++ openerOf nm w1 w2 ++ TEXT ++ closerOf nm w3 w4 ++ post)
    ∧ ((pre ++ openerOf nm w1 w2 ++ TEXT ++ closerOf nm w3 w4 ++ post).drop
        (pre.length + (openerOf nm w1 w2).length)).take TEXT.length = TEXT
    ∧ ∀ lines : List (List Char),
        lines.get? idx =
          some (pre ++ openerOf nm w1 w2 ++ TEXT ++ closerOf nm w3 w4 ++ post) →
        (⟨nm, (idx : Int) + 1, (pre.length : Int) + (openerOf nm w1 w2).length,
            (pre.length : Int) + (openerOf nm w1 w2).length + TEXT.length⟩ : InlineSnippet) ∈
          parse_inline_snippets lines := by
  set o := openerOf nm w1 w2 with ho
  set cl := closerOf nm w3 w4 with hcl
  set line := pre ++ o ++ TEXT ++ cl ++ post with hline
  have hassoc : line = pre ++ (o ++ (TEXT ++ (cl ++ post))) := by
    rw [hline]; simp [List.append_assoc]
  have hassoc2 : line = (pre ++ o) ++ (TEXT ++ (cl ++ post)) := by
    rw [hline]; simp [List.append_assoc]
  have hdropP : line.drop pre.length = o ++ (TEXT ++ (cl ++ post)) := by
    rw [hassoc]; exact List.drop_left pre _
  have hdropo : (line.drop pre.length).drop o.length = TEXT ++ (cl ++ post) := by
    rw [hdropP]; exact List.drop_left o _
  have holen : o.length = 6 + (w1.length + (nm.length + w2.length)) := by
    rw [ho]; simp [openerOf, List.length_append]; omega
  have hlen : line.length =
      pre.length + (o.length + TEXT.length + cl.length) + post.length := by
    rw [hassoc]; simp [List.length_append]; omega
  have hPlt : pre.length < line.length := by omega
  -- the leftmost regex match, at column pre.length
  have hpo : parseOpener (line.drop pre.length) = some (nm, o.length) := by
    rw [hdropP, ho]; exact parseOpener_canonical _ hne hword hw1 hw2
  have hpc : parseCloser nm (cl ++ post) = some cl.length := by
    rw [hcl]; exact parseCloser_canonical post hw3 hw4
  have hfc : findCloserFrom nm (TEXT ++ (cl ++ post)) = some (TEXT.length, cl.length) :=
    findCloserFrom_exact TEXT (cl ++ post) cl.length hpc hNo
  have hguard : ((TEXT ++ (cl ++ post)).take TEXT.length).all (fun c => c != '\n') = true := by
    rw [List.take_left TEXT _, List.all_eq_true]
    intro c hc
    simpa using hTnl c hc
  have hmatch : matchInlineAt (line.drop pre.length) =
      some (nm, o.length, TEXT.length, cl.length) := by
    simp only [matchInlineAt, hpo, hdropo, hfc, hguard, if_pos]
  -- the finditer scan reaches column pre.length and emits the match
  have hmem0 : (nm, pre.length, pre.length + (o.length + TEXT.length + cl.length))
      ∈ scanInline line := by
    rw [scanInline]
    exact scanInlineAux_reach hPlt hmatch (line.length + 1) 0 (Nat.zero_le _)
      (by omega) (fun p _ hp2 => hpre p hp2)
  -- the loop body's two offset computations
  have e1 : pyFind2 '-' '}' line pre.length + 2 = (pre.length : Int) + o.length := by
    have h1 : findSub2From '-' '}' (line.drop pre.length) =
        some (2 + (w1.length + 1 + nm.length + 1 + w2.length)) := by
      rw [hdropP, ho]; exact find2_opener _ hne hword hw1 hw2
    rw [pyFind2_eq h1, holen]
    push_cast
    ring
  have h0 : rfindSub2 '{' '-' cl = some 0 := by
    rw [hcl]
    show rfindSub2 '{' '-'
      ('{' :: '-' :: (w3 ++ '<' :: '/' :: (nm ++ '>' :: (w4 ++ ['-', '}'])))) = some 0
    exact rfind2_closer hword hw3 hw4
  have hseg : (line.drop pre.length).take
      (pre.length + (o.length + TEXT.length + cl.length) - pre.length) =
        (o ++ TEXT) ++ cl := by
    rw [hdropP]
    rw [show o ++ (TEXT ++ (cl ++ post)) = ((o ++ TEXT) ++ cl) ++ post from by
      simp [List.append_assoc]]
    rw [show pre.length + (o.length + TEXT.length + cl.length) - pre.length =
      ((o ++ TEXT) ++ cl).length from by simp [List.length_append]; omega]
    exact List.take_left _ _
  have hsegR : rfindSub2 '{' '-' ((line.drop pre.length).take
      (pre.length + (o.length + TEXT.length + cl.length) - pre.length)) =
        some ((o ++ TEXT).length) := by
    rw [hseg]
    have := rfind2_append_some (o ++ TEXT) h0
    simpa using this
  have e2 : pyRFind2 '{' '-' line pre.length
      (pre.length + (o.length + TEXT.length + cl.length)) =
        (pre.length : Int) + o.length + TEXT.length := by
    rw [pyRFind2_eq hsegR]
    push_cast [List.length_append]
    ring
  have hmkeq : mkInline idx line
      (nm, pre.length, pre.length + (o.length + TEXT.length + cl.length)) =
      ⟨nm, (idx : Int) + 1, (pre.length : Int) + o.length,
        (pre.length : Int) + o.length + TEXT.length⟩ := by
    simp only [mkInline]
    rw [e1, e2]
  have hmem1 : (⟨nm, (idx : Int) + 1, (pre.length : Int) + o.length,
      (pre.length : Int) + o.length + TEXT.length⟩ : InlineSnippet) ∈
        parse_inline_line idx line := by
    rw [← hmkeq]
    exact List.mem_map_of_mem _ hmem0
  refine ⟨hmem1, ?_, ?_⟩
  · rw [hassoc2, show pre.length + o.length = (pre ++ o).length from by
      simp [List.length_append]]
    rw [List.drop_left]
    exact List.take_left TEXT _
  · intro lines hget
    have hmem2 : (⟨nm, (idx : Int) + 1, (pre.length : Int) + o.length,
        (pre.length : Int) + o.length + TEXT.length⟩ : InlineSnippet) ∈
          parse_inline_line (0 + idx) line := by
      rw [Nat.zero_add]
      exact hmem1
    have := parseInlineAux_mem (i := 0) (p := idx) hget hmem2
    simpa [parse_inline_snippets] using this

/-- C3 witness: the match `\x7b- <bar> -\x7dxyz\x7b- </bar> -\x7d` embedded
after `y` and before `z` on 1-indexed line 3 (`idx = 2`); the opener is 11
characters long, so the span is columns 12 to 15 and the slice is `xyz`. -/
theorem c3_inline_offsets_witness :
    (⟨"bar".data, (2 : Int) + 1,
        (("y".data : List Char).length : Int) + (openerOf "bar".data [' '] [' ']).length,
        (("y".data : List Char).length : Int) + (openerOf "bar".data [' '] [' ']).length +
          ("xyz".data).length⟩ : InlineSnippet) ∈
      parse_inline_line 2
        ("y".data ++ openerOf "bar".data [' '] [' '] ++ "xyz".data ++
          closerOf "bar".data [' '] [' '] ++ "z".data)
    ∧ (("y".data ++ openerOf "bar".data [' '] [' '] ++ "xyz".data ++
        closerOf "bar".data [' '] [' '] ++ "z".data).drop
          (("y".data : List Char).length + (openerOf "bar".data [' '] [' ']).length)).take
            ("xyz".data).length = "xyz".data := by
  have h := c3_inline_offsets "bar".data [' '] [' '] [' '] [' '] "y".data "xyz".data
    "z".data 2 (by decide) (by decide) (by decide) (by decide) (by decide) (by decide)
    (by decide) (by decide) (by decide)
  exact ⟨h.1, h.2.1⟩

/-! ### Claim C5: snippet ordering in `parse_file` -/

theorem scanInlineAux_start_ge {line : List Char} :
    ∀ fuel pos, ∀ m ∈ scanInlineAux line fuel pos, pos ≤ m.2.1 := by
  intro fuel
  induction fuel with
  | zero => intro pos m hm; simp [scanInlineAux] at hm
  | succ f ih =>
    intro pos m hm
    by_cases hp : line.length ≤ pos
    · rw [scanInlineAux, if_pos hp] at hm
      simp at hm
    · rw [scanInlineAux, if_neg hp] at hm
      cases hmi : matchInlineAt (line.drop pos) with
      | none =>
        rw [hmi] at hm
        have := ih _ m hm
        omega
      | some t =>
        obtain ⟨nm, oLen, q, cLen⟩ := t
        rw [hmi] at hm
        rcases List.mem_cons.mp hm with rfl | hmem
        · simp
        · have := ih _ m hmem
          omega

theorem scanInlineAux_pairwise {line : List Char} :
    ∀ fuel pos, List.Pairwise (fun a b : List Char × Nat × Nat => a.2.2 ≤ b.2.1)
      (scanInlineAux line fuel pos) := by
  intro fuel
  induction fuel with
  | zero => intro pos; simp [scanInlineAux]
  | succ f ih =>
    intro pos
    by_cases hp : line.length ≤ pos
    · rw [scanInlineAux, if_pos hp]
      exact List.Pairwise.nil
    · rw [scanInlineAux, if_neg hp]
      cases hmi : matchInlineAt (line.drop pos) with
      | none => exact ih _
      | some t =>
        obtain ⟨nm, oLen, q, cLen⟩ := t
        refine List.Pairwise.cons ?_ (ih _)
        intro b hb
        exact scanInlineAux_start_ge f (pos + (oLen + q + cLen)) b hb

theorem parse_inline_line_offset {n : Nat} {line : List Char} :
    ∀ s ∈ parse_inline_line n line, s.line_offset = (n : Int) + 1 := by
  intro s hs
  simp only [parse_inline_line, List.mem_map] at hs
  obtain ⟨m, _, rfl⟩ := hs
  rfl

theorem parseInlineAux_offset_ge {ls : List (List Char)} :
    ∀ n, ∀ s ∈ parseInlineAux n ls, (n : Int) + 1 ≤ s.line_offset := by
  induction ls with
  | nil => intro n s hs; simp [parseInlineAux] at hs
  | cons l rest ih =>
    intro n s hs
    simp only [parseInlineAux, List.mem_append] at hs
    rcases hs with h1 | h2
    · rw [parse_inline_line_offset s h1]
    · have := ih (n + 1) s h2
      push_cast at this ⊢
      omega

theorem pairwise_of_forall_rel {α : Type} {R : α → α → Prop} (l : List α)
    (h : ∀ a ∈ l, ∀ b ∈ l, R a b) : l.Pairwise R := by
  induction l with
  | nil => exact List.Pairwise.nil
  | cons x xs ih =>
    refine List.Pairwise.cons ?_ (ih ?_)
    · intro b hb
      exact h x (by simp) b (by simp [hb])
    · intro a ha b hb
      exact h a (by simp [ha]) b (by simp [hb])

theorem parseInlineAux_pairwise {ls : List (List Char)} :
    ∀ n, List.Pairwise (fun a b : InlineSnippet => a.line_offset ≤ b.line_offset)
      (parseInlineAux n ls) := by
  induction ls with
  | nil => intro n; simp [parseInlineAux]
  | cons l rest ih =>
    intro n
    simp only [parseInlineAux]
    refine List.pairwise_append.mpr ⟨?_, ih (n + 1), ?_⟩
    · refine pairwise_of_forall_rel _ ?_
      intro a ha b hb
      rw [parse_inline_line_offset a ha, parse_inline_line_offset b hb]
    · intro a ha b hb
      rw [parse_inline_line_offset a ha]
      have := parseInlineAux_offset_ge (n + 1) b hb
      push_cast at this ⊢
      omega

/-- C5: the snippet list of a file is all DisplaySnippets (in order of their
opening markers, strictly increasing line offsets) followed by all
InlineSnippets (in file order, non-decreasing line offsets; left-to-right and
non-overlapping within each line); display and inline records are never
interleaved. -/
theorem c5_snippet_order (env : Env) (fp : List Char) (lines : List (List Char))
    (h : env.files fp = some lines) :
    parse_file env fp =
      (parse_display_snippets lines).1.map Snippet.display
        ++ (parse_inline_snippets lines).map Snippet.inline
    ∧ List.Pairwise (fun a b : DisplaySnippet => a.line_offset < b.line_offset)
        (parse_display_snippets lines).1
    ∧ List.Pairwise (fun a b : InlineSnippet => a.line_offset ≤ b.line_offset)
        (parse_inline_snippets lines)
    ∧ ∀ l ∈ lines, List.Pairwise (fun a b : List Char × Nat × Nat => a.2.2 ≤ b.2.1)
        (scanInline l) := by
  refine ⟨by simp [parse_file, h, parseLines], parseDisplayAux_pairwise,
    parseInlineAux_pairwise 0, ?_⟩
  intro l _
  exact scanInlineAux_pairwise _ _

/-- A small concrete environment: one source file with one display and one
inline snippet, an always-succeeding renderer, and a writable output. -/
def demoLines : List (List Char) :=
  ["-- <a>".data, "x".data, "-- </a>".data,
   "y".data ++ openerOf "i".data [' '] [' '] ++ "Q".data ++ closerOf "i".data [' '] [' ']]

def demoEnv : Env :=
  { files := fun p => if p = "f.idr".data then some demoLines else none,
    ttmExists := fun _ => true,
    runner := fun _ => ⟨0, "out\n".data, []⟩,
    writeOk := true }

/-- C5 witness: the order property applied to the concrete environment. -/
theorem c5_snippet_order_witness :
    parse_file demoEnv "f.idr".data =
      (parse_display_snippets demoLines).1.map Snippet.display
        ++ (parse_inline_snippets demoLines).map Snippet.inline :=
  (c5_snippet_order demoEnv "f.idr".data demoLines (by decide)).1

/-! ### Claim C10: the per-snippet success criterion -/

theorem isPrefixOf_append_self (l r : List Char) : l.isPrefixOf (l ++ r) = true := by
  rw [List.isPrefixOf_iff_prefix]
  exact l.prefix_append r

/-- C10: in normal mode a dispatched snippet is counted as successful iff the
renderer exits 0 with non-empty standard output not beginning with
`% Error`; an unsuccessful snippet with non-empty output still has that
output appended as a placeholder, while a successful one contributes its
normalized fragment. -/
theorem c10_success_criterion (env : Env) (s : Snippet) (src ttm : List Char) :
    (snippetSuccess env s src ttm = true ↔
      ((env.runner (katlaCmd s src ttm)).returncode = 0 ∧
       (env.runner (katlaCmd s src ttm)).stdout ≠ [] ∧
       errMark.isPrefixOf (env.runner (katlaCmd s src ttm)).stdout = false))
    ∧ (snippetSuccess env s src ttm = true →
        snippetStep (run_katla_command env s src ttm false) =
          (1, [successFragment (run_katla_command env s src ttm false)]))
    ∧ (snippetSuccess env s src ttm = false →
        run_katla_command env s src ttm false ≠ [] →
        snippetStep (run_katla_command env s src ttm false) =
          (0, [run_katla_command env s src ttm false])) := by
  have hout : run_katla_command env s src ttm false =
      (if (env.runner (katlaCmd s src ttm)).returncode ≠ 0 then
        "% Error generating macro for ".data ++ s.sname ++ "\n".data
      else (env.runner (katlaCmd s src ttm)).stdout) := by
    simp [run_katla_command]
  have hpre : errMark.isPrefixOf
      ("% Error generating macro for ".data ++ s.sname ++ "\n".data) = true := by
    have hsplit : "% Error generating macro for ".data ++ s.sname ++ "\n".data =
        errMark ++ (" generating macro for ".data ++ (s.sname ++ "\n".data)) := by
      have : "% Error generating macro for ".data =
          errMark ++ " generating macro for ".data := by decide
      rw [this]
      simp
    rw [hsplit]
    exact isPrefixOf_append_self _ _
  refine ⟨?_, ?_, ?_⟩
  · rw [snippetSuccess, hout]
    by_cases hrc : (env.runner (katlaCmd s src ttm)).returncode = 0
    · rw [if_neg (by simp [hrc])]
      rw [snippetOk]
      simp [hrc, Bool.and_eq_true, List.isEmpty_iff]
    · rw [if_pos hrc]
      rw [snippetOk]
      simp only [hpre, Bool.not_true, Bool.and_false]
      simp [hrc]
  · intro hsucc
    rw [snippetSuccess] at hsucc
    simp [snippetStep, hsucc]
  · intro hfail hne
    rw [snippetSuccess] at hfail
    simp [snippetStep, hfail, hne]

/-- C10 witness: applied to a concrete environment where the renderer exits
0 with output `out` followed by a newline. -/
theorem c10_success_criterion_witness :
    snippetSuccess demoEnv (Snippet.display ⟨"a".data, 1, 1⟩) "f.idr".data "f.ttm".data
      = true :=
  (c10_success_criterion demoEnv (Snippet.display ⟨"a".data, 1, 1⟩) "f.idr".data
    "f.ttm".data).1.mpr ⟨by decide, by decide, by decide⟩

/-! ### Claim C8: trailing newlines of successful fragments -/

/-- C8 counterexample: a successful dispatcher output already ending in two
newlines is appended unchanged, so the collected fragment ends with more
than one line terminator, contradicting the claim's "no more". -/
theorem c8_counterexample :
    snippetStep ("x\n\n".data) = (1, ["x\n\n".data])
    ∧ successFragment ("x\n\n".data) = "x\n\n".data
    ∧ endsWithOneNl ("x\n\n".data) = false := by
  refine ⟨?_, by decide, by decide⟩
  rw [snippetStep, if_pos (by decide)]
  rw [successFragment, if_pos (by decide)]

/-- C8 amended: every collected successful fragment ends with at least one
newline; when the dispatcher output does not already end with one, exactly
one newline is appended (so the fragment then ends with exactly one).
Outputs already ending in newlines are left unchanged, so "no more than one"
does not hold in general. -/
theorem c8_fragment_amended (out : List Char) :
    endsWithNl (successFragment out) = true
    ∧ (endsWithNl out = false →
        successFragment out = out ++ "\n".data
        ∧ endsWithOneNl (successFragment out) = true) := by
  have hnl : "\n".data = ['\n'] := rfl
  constructor
  · by_cases h : endsWithNl out = true
    · simp [successFragment, h]
    · have h' : endsWithNl out = false := by simpa using h
      rw [successFragment, h']
      simp only [Bool.false_eq_true, if_false, hnl]
      rw [endsWithNl]
      simp [List.getLast?_concat]
  · intro h
    have hfrag : successFragment out = out ++ "\n".data := by
      rw [successFragment, h]
      simp
    refine ⟨hfrag, ?_⟩
    rw [hfrag, endsWithOneNl, hnl]
    have h1 : endsWithNl (out ++ ['\n']) = true := by
      rw [endsWithNl]
      simp [List.getLast?_concat]
    have h2 : (out ++ ['\n']).dropLast = out := List.dropLast_concat
    rw [h1, h2]
    rw [endsWithNl] at h
    simp [h]

/-- C8 witness: a dispatcher output lacking a trailing newline gets exactly
one appended. -/
theorem c8_fragment_amended_witness :
    endsWithNl (successFragment ("x".data)) = true
    ∧ successFragment ("x".data) = "x".data ++ "\n".data
    ∧ endsWithOneNl (successFragment ("x".data)) = true :=
  ⟨(c8_fragment_amended "x".data).1, ((c8_fragment_amended "x".data).2 (by decide)).1,
   ((c8_fragment_amended "x".data).2 (by decide)).2⟩

/-! ### Claim C7: exit status and counters -/

theorem snippetStep_fst (env : Env) (s : Snippet) (src ttm : List Char) :
    (snippetStep (run_katla_command env s src ttm false)).1 =
      if snippetSuccess env s src ttm = true then 1 else 0 := by
  rw [snippetSuccess]
  by_cases h : snippetOk (run_katla_command env s src ttm false) = true
  · simp [snippetStep, h]
  · rw [Bool.not_eq_true] at h
    simp only [snippetStep, h, Bool.false_eq_true, if_false]
    split <;> rfl

theorem processSnippets_le (env : Env) (src ttm : List Char) (snips : List Snippet) :
    (processSnippets env src ttm snips).1 ≤ snips.length := by
  induction snips with
  | nil => simp [processSnippets]
  | cons s rest ih =>
    simp only [processSnippets, List.length_cons]
    have h := snippetStep_fst env s src ttm
    rw [h]
    split <;> omega

theorem processSnippets_eq_iff (env : Env) (src ttm : List Char) (snips : List Snippet) :
    (processSnippets env src ttm snips).1 = snips.length ↔
      ∀ s ∈ snips, snippetSuccess env s src ttm = true := by
  induction snips with
  | nil => simp [processSnippets]
  | cons s rest ih =>
    simp only [processSnippets, List.length_cons]
    have hle := processSnippets_le env src ttm rest
    rw [snippetStep_fst env s src ttm]
    by_cases hsucc : snippetSuccess env s src ttm = true
    · rw [if_pos hsucc]
      constructor
      · intro he
        have hrest : (processSnippets env src ttm rest).1 = rest.length := by omega
        intro t ht
        rcases List.mem_cons.mp ht with rfl | htr
        · exact hsucc
        · exact (ih.mp hrest) t htr
      · intro hall
        have : (processSnippets env src ttm rest).1 = rest.length :=
          ih.mpr (fun t ht => hall t (List.mem_cons_of_mem _ ht))
        omega
    · rw [if_neg hsucc]
      constructor
      · intro he
        exact absurd (by omega : (processSnippets env src ttm rest).1 = rest.length + 1)
          (by omega)
      · intro hall
        exact absurd (hall s (List.mem_cons_self _ _)) hsucc

/-- Whether every snippet discovered for one (source, metadata) pair is
dispatched successfully; pairs skipped by the existence checks discover no
snippets. -/
def pairOk (env : Env) (pr : List Char × List Char) : Prop :=
  (env.files pr.1).isSome = true → env.ttmExists pr.2 = true →
    ∀ s ∈ parse_file env pr.1, snippetSuccess env s pr.1 pr.2 = true

/-- Every discovered snippet across all file pairs dispatches successfully. -/
def allDispatchOk (env : Env) (files : List (List Char)) : Prop :=
  ∀ pr ∈ toPairs files, pairOk env pr


theorem foldl_counts (env : Env) (ps : List (List Char × List Char)) :
    ∀ st : AggState, st.total_success ≤ st.total_snippets →
      ((ps.foldl (processPair env) st).total_success ≤
          (ps.foldl (processPair env) st).total_snippets
       ∧ ((ps.foldl (processPair env) st).total_success =
            (ps.foldl (processPair env) st).total_snippets ↔
          (st.total_success = st.total_snippets ∧ ∀ pr ∈ ps, pairOk env pr))) := by
  induction ps with
  | nil =>
    intro st h
    refine ⟨h, ?_⟩
    simp
  | cons pr ps ih =>
    intro st hst
    simp only [List.foldl_cons]
    by_cases h1 : (env.files pr.1).isNone = true
    · have hpp : processPair env st pr = st := by simp [processPair, h1]
      rw [hpp]
      have hih := ih st hst
      refine ⟨hih.1, ?_⟩
      rw [hih.2]
      have hvac : pairOk env pr := by
        intro hsome
        cases hfo : env.files pr.1 with
        | none => rw [hfo] at hsome; cases hsome
        | some v => rw [hfo] at h1; cases h1
      constructor
      · rintro ⟨a, b⟩
        refine ⟨a, fun q hq => ?_⟩
        rcases List.mem_cons.mp hq with rfl | hq'
        · exact hvac
        · exact b q hq'
      · rintro ⟨a, b⟩
        exact ⟨a, fun q hq => b q (List.mem_cons_of_mem _ hq)⟩
    · by_cases h2 : env.ttmExists pr.2 = true
      · obtain ⟨stN, hpp, hsN, htN⟩ : ∃ stN : AggState,
            processPair env st pr = stN ∧
            stN.total_success = st.total_success +
              (processSnippets env pr.1 pr.2 (parse_file env pr.1)).1 ∧
            stN.total_snippets = st.total_snippets + (parse_file env pr.1).length := by
          refine ⟨AggState.mk
              (st.total_success + (processSnippets env pr.1 pr.2 (parse_file env pr.1)).1)
              (st.total_snippets + (parse_file env pr.1).length)
              (st.content
                ++ (if (parse_file env pr.1).isEmpty then [] else [fileHeader pr.1])
                ++ (processSnippets env pr.1 pr.2 (parse_file env pr.1)).2
                ++ (if (parse_file env pr.1).isEmpty then [] else ["\n".data])),
            ?_, rfl, rfl⟩
          simp [processPair, h1, h2]
        rw [hpp]
        have hd : (processSnippets env pr.1 pr.2 (parse_file env pr.1)).1 ≤
            (parse_file env pr.1).length := processSnippets_le env pr.1 pr.2 _
        have hle' : stN.total_success ≤ stN.total_snippets := by
          rw [hsN, htN]; omega
        have hih := ih stN hle'
        refine ⟨hih.1, ?_⟩
        rw [hih.2, hsN, htN]
        have hsome : (env.files pr.1).isSome = true := by
          cases hfo : env.files pr.1 with
          | none => rw [hfo] at h1; exact absurd rfl h1
          | some v => rfl
        have hpok : pairOk env pr ↔
            ∀ s ∈ parse_file env pr.1, snippetSuccess env s pr.1 pr.2 = true := by
          constructor
          · intro hp
            exact hp hsome h2
          · intro hall _ _
            exact hall
        constructor
        · rintro ⟨a, b⟩
          have ha1 : st.total_success = st.total_snippets := by omega
          have ha2 : (processSnippets env pr.1 pr.2 (parse_file env pr.1)).1 =
              (parse_file env pr.1).length := by omega
          refine ⟨ha1, fun q hq => ?_⟩
          rcases List.mem_cons.mp hq with rfl | hq'
          · exact hpok.mpr ((processSnippets_eq_iff env q.1 q.2 _).mp ha2)
          · exact b q hq'
        · rintro ⟨a, b⟩
          have hq1 : pairOk env pr := b pr (List.mem_cons_self _ _)
          have heq2 : (processSnippets env pr.1 pr.2 (parse_file env pr.1)).1 =
              (parse_file env pr.1).length :=
            (processSnippets_eq_iff env pr.1 pr.2 _).mpr (hpok.mp hq1)
          exact ⟨by omega, fun q hq => b q (List.mem_cons_of_mem _ hq)⟩
      · have h2' : env.ttmExists pr.2 = false := by
          rw [← Bool.not_eq_true]
          exact h2
        have hpp : processPair env st pr = st := by
          simp [processPair, h1, h2']
        rw [hpp]
        have hih := ih st hst
        refine ⟨hih.1, ?_⟩
        rw [hih.2]
        have hvac : pairOk env pr := fun _ httm => absurd httm h2
        constructor
        · rintro ⟨a, b⟩
          refine ⟨a, fun q hq => ?_⟩
          rcases List.mem_cons.mp hq with rfl | hq'
          · exact hvac
          · exact b q hq'
        · rintro ⟨a, b⟩
          exact ⟨a, fun q hq => b q (List.mem_cons_of_mem _ hq)⟩

theorem mainRun_counters (env : Env) (files : List (List Char))
    (he : files.length % 2 = 0) :
    (mainRun env files).total_success =
        ((toPairs files).foldl (processPair env) ⟨0, 0, headerLines⟩).total_success
    ∧ (mainRun env files).total_snippets =
        ((toPairs files).foldl (processPair env) ⟨0, 0, headerLines⟩).total_snippets := by
  rw [mainRun, if_neg (by omega)]
  by_cases hw : env.writeOk = true
  · simp only [hw, Bool.not_true, Bool.false_eq_true, if_false]
    by_cases hlt : ((toPairs files).foldl (processPair env)
          ⟨0, 0, headerLines⟩).total_success <
        ((toPairs files).foldl (processPair env) ⟨0, 0, headerLines⟩).total_snippets
    · rw [if_pos hlt]; exact ⟨rfl, rfl⟩
    · rw [if_neg hlt]; exact ⟨rfl, rfl⟩
  · have hw' : env.writeOk = false := by rw [← Bool.not_eq_true]; exact hw
    simp only [hw', Bool.not_false, if_true]
    constructor <;> trivial

theorem mainRun_exit_even (env : Env) (files : List (List Char))
    (he : files.length % 2 = 0) :
    (mainRun env files).exitCode =
      (if !env.writeOk then 1
       else if ((toPairs files).foldl (processPair env)
              ⟨0, 0, headerLines⟩).total_success <
            ((toPairs files).foldl (processPair env) ⟨0, 0, headerLines⟩).total_snippets
         then 1 else 0) := by
  rw [mainRun, if_neg (by omega)]
  by_cases hw : env.writeOk = true
  · simp only [hw, Bool.not_true, Bool.false_eq_true, if_false]
    by_cases hlt : ((toPairs files).foldl (processPair env)
          ⟨0, 0, headerLines⟩).total_success <
        ((toPairs files).foldl (processPair env) ⟨0, 0, headerLines⟩).total_snippets
    · rw [if_pos hlt, if_pos hlt]
    · rw [if_neg hlt, if_neg hlt]
  · have hw' : env.writeOk = false := by rw [← Bool.not_eq_true]; exact hw
    simp only [hw', Bool.not_false, if_true]

/-- C7: in normal mode the exit status is 0 iff the argument count is even,
the combined output file is writable, and every discovered snippet is
dispatched successfully; and whenever all snippets dispatch successfully the
success counter equals the total snippet counter. -/
theorem c7_exit_status (env : Env) (files : List (List Char)) :
    ((mainRun env files).exitCode = 0 ↔
      (files.length % 2 = 0 ∧ env.writeOk = true ∧ allDispatchOk env files))
    ∧ (files.length % 2 = 0 → allDispatchOk env files →
        (mainRun env files).total_success = (mainRun env files).total_snippets) := by
  by_cases hodd : files.length % 2 = 0
  · have hcnt := mainRun_counters env files hodd
    have hex := mainRun_exit_even env files hodd
    have hFC := foldl_counts env (toPairs files) ⟨0, 0, headerLines⟩ (Nat.le_refl 0)
    have hiff : ((toPairs files).foldl (processPair env)
          ⟨0, 0, headerLines⟩).total_success =
        ((toPairs files).foldl (processPair env) ⟨0, 0, headerLines⟩).total_snippets ↔
        allDispatchOk env files := by
      rw [hFC.2, allDispatchOk]
      simp
    constructor
    · rw [hex]
      by_cases hw : env.writeOk = true
      · rw [if_neg (by simp [hw])]
        by_cases hlt : ((toPairs files).foldl (processPair env)
              ⟨0, 0, headerLines⟩).total_success <
            ((toPairs files).foldl (processPair env) ⟨0, 0, headerLines⟩).total_snippets
        · rw [if_pos hlt]
          constructor
          · intro h
            exact absurd h one_ne_zero
          · rintro ⟨-, -, hall⟩
            have := hiff.mpr hall
            omega
        · rw [if_neg hlt]
          have heq : ((toPairs files).foldl (processPair env)
                ⟨0, 0, headerLines⟩).total_success =
              ((toPairs files).foldl (processPair env)
                ⟨0, 0, headerLines⟩).total_snippets := by
            have := hFC.1
            omega
          constructor
          · intro _
            exact ⟨hodd, hw, hiff.mp heq⟩
          · intro _
            rfl
      · have hw' : env.writeOk = false := by rw [← Bool.not_eq_true]; exact hw
        rw [if_pos (by simp [hw'])]
        constructor
        · intro h
          exact absurd h one_ne_zero
        · rintro ⟨-, hwt, -⟩
          rw [hw'] at hwt
          cases hwt
    · intro _ hall
      rw [hcnt.1, hcnt.2]
      exact hiff.mpr hall
  · have hmain : mainRun env files = ⟨1, 0, 0, []⟩ := by
      rw [mainRun, if_pos (by omega)]
    constructor
    · rw [hmain]
      constructor
      · intro h
        exact absurd h one_ne_zero
      · rintro ⟨he, -, -⟩
        exact absurd he hodd
    · intro he
      exact absurd he hodd

/-- C7 witness: in the concrete environment every snippet succeeds, so the
run exits 0 with equal counters. -/
theorem c7_exit_status_witness :
    (mainRun demoEnv ["f.idr".data, "f.ttm".data]).exitCode = 0
    ∧ (mainRun demoEnv ["f.idr".data, "f.ttm".data]).total_success =
        (mainRun demoEnv ["f.idr".data, "f.ttm".data]).total_snippets := by
  have h := c7_exit_status demoEnv ["f.idr".data, "f.ttm".data]
  have hall : allDispatchOk demoEnv ["f.idr".data, "f.ttm".data] := by
    rw [allDispatchOk]
    intro pr hpr
    rw [show toPairs [("f.idr".data : List Char), "f.ttm".data] =
      [("f.idr".data, "f.ttm".data)] from rfl] at hpr
    rw [List.mem_singleton] at hpr
    subst hpr
    rw [pairOk]
    decide
  exact ⟨h.1.mpr ⟨by decide, by decide, hall⟩, h.2 (by decide) hall⟩

end GenKatla
